import Mathlib

/-!
Verification development for the baseball prop-projection repository.

JavaScript strings are modelled as lists of Unicode code points (`List ℕ`);
JavaScript numbers are modelled as exact rationals (`ℚ`) or reals (`ℝ`) where
the source uses transcendental functions (`Math.exp`, `Math.sqrt`).
Each namespace below embeds one source file; the definitions mirror the
corresponding JavaScript (or Python) line by line.
-/

namespace Js

/-- Whitespace code points as matched by JavaScript `trim()` and the regex
class `\s` (restricted to the ASCII range: TAB, LF, VT, FF, CR, SPACE). -/
def isWs (c : ℕ) : Bool := c = 9 || c = 10 || c = 11 || c = 12 || c = 13 || c = 32

/-- Code point of the comma character. -/
def commaCh : ℕ := 44

/-- Code point of the space character. -/
def spaceCh : ℕ := 32

/-- ASCII action of JavaScript `toLowerCase()` on a single code point. -/
def lowerChar (c : ℕ) : ℕ := if 65 ≤ c ∧ c ≤ 90 then c + 32 else c

/-- JavaScript `String.prototype.toLowerCase()` (ASCII action). -/
def lower (s : List ℕ) : List ℕ := s.map lowerChar

/-- JavaScript `String.prototype.trim()`: strip leading and trailing whitespace. -/
def trim (s : List ℕ) : List ℕ :=
  ((s.dropWhile isWs).reverse.dropWhile isWs).reverse

/-- JavaScript `t.split(',')[0]`: the prefix of `t` before its first comma
(all of `t` when no comma occurs). -/
def beforeComma (t : List ℕ) : List ℕ := t.takeWhile (fun c => !(c == commaCh))

/-- JavaScript `t.split(',').slice(1).join(',')`: everything after the first
comma of `t` (empty when no comma occurs). -/
def afterComma (t : List ℕ) : List ℕ := (t.dropWhile (fun c => !(c == commaCh))).drop 1

/-- JavaScript `(rest || '').trim().split(/\s+/)[0] || ''`: the first
whitespace-delimited token of the trimmed string (empty for all-blank input). -/
def firstToken (s : List ℕ) : List ℕ := (trim s).takeWhile (fun c => !(isWs c))

theorem length_dropWhile_le (p : ℕ → Bool) (l : List ℕ) :
    (l.dropWhile p).length ≤ l.length := by
  induction l with
  | nil => simp
  | cons c cs ih =>
    by_cases h : p c
    · rw [List.dropWhile_cons_of_pos h]
      exact Nat.le_trans ih (Nat.le_succ _)
    · rw [List.dropWhile_cons_of_neg h]

/-- JavaScript `t.split(/\s+/).filter(Boolean)`: the maximal runs of
non-whitespace code points of `t`, in order. -/
def tokens : List ℕ → List (List ℕ)
  | [] => []
  | c :: cs =>
    if isWs c then tokens cs
    else (c :: cs.takeWhile (fun d => !(isWs d))) :: tokens (cs.dropWhile (fun d => !(isWs d)))
termination_by s => s.length
decreasing_by
  · simp only [List.length_cons]; omega
  · simp only [List.length_cons]
    exact Nat.lt_succ_of_le (length_dropWhile_le _ _)

theorem lowerChar_idem (c : ℕ) : lowerChar (lowerChar c) = lowerChar c := by
  unfold lowerChar
  split
  · rename_i h
    have hno : ¬(65 ≤ c + 32 ∧ c + 32 ≤ 90) := by omega
    rw [if_neg hno]
  · rfl

theorem isWs_lowerChar (c : ℕ) : isWs (lowerChar c) = isWs c := by
  unfold lowerChar
  split
  · rename_i h
    have h1 : isWs (c + 32) = false := by
      simp only [isWs, Bool.or_eq_false_iff, decide_eq_false_iff_not]
      omega
    have h2 : isWs c = false := by
      simp only [isWs, Bool.or_eq_false_iff, decide_eq_false_iff_not]
      omega
    rw [h1, h2]
  · rfl

theorem lowerChar_eq_comma_iff (c : ℕ) : lowerChar c = commaCh ↔ c = commaCh := by
  unfold lowerChar commaCh
  split <;> omega

theorem lower_lower (s : List ℕ) : lower (lower s) = lower s := by
  unfold lower
  rw [List.map_map]
  exact List.map_congr_left fun c _ => lowerChar_idem c

theorem mem_lower {c : ℕ} {s : List ℕ} (h : c ∈ lower s) :
    ∃ d ∈ s, lowerChar d = c := by
  simpa [lower] using h

theorem lower_reverse (l : List ℕ) : lower l.reverse = (lower l).reverse :=
  List.map_reverse _ _

theorem trim_lower (s : List ℕ) : trim (lower s) = lower (trim s) := by
  have hkey : ∀ l : List ℕ, (lower l).dropWhile isWs = lower (l.dropWhile isWs) := by
    intro l
    unfold lower
    rw [List.dropWhile_map]
    have hfun : (isWs ∘ lowerChar) = isWs := funext isWs_lowerChar
    rw [hfun]
  unfold trim
  rw [hkey, ← lower_reverse, hkey, ← lower_reverse]

theorem takeWhile_eq_self_of_all {p : ℕ → Bool} {l : List ℕ}
    (h : ∀ x ∈ l, p x = true) : l.takeWhile p = l :=
  List.takeWhile_eq_self_iff.mpr h

theorem dropWhile_eq_nil_of_all {p : ℕ → Bool} {l : List ℕ}
    (h : ∀ x ∈ l, p x = true) : l.dropWhile p = [] :=
  List.dropWhile_eq_nil_iff.mpr h

theorem dropWhile_eq_self_of_head {p : ℕ → Bool} {l : List ℕ}
    (h : ∀ c ∈ l.head?, p c = false) : l.dropWhile p = l := by
  cases l with
  | nil => rfl
  | cons c cs =>
    apply List.dropWhile_cons_of_neg
    simp only [List.head?_cons, Option.mem_some_iff] at h
    simp [h c rfl]

theorem takeWhile_stop {p : ℕ → Bool} {xs : List ℕ} {y : ℕ} (ys : List ℕ)
    (hxs : ∀ x ∈ xs, p x = true) (hy : p y = false) :
    (xs ++ y :: ys).takeWhile p = xs := by
  induction xs with
  | nil => simp [List.takeWhile_cons_of_neg, hy]
  | cons a as ih =>
    have ha : p a = true := hxs a (by simp)
    simp only [List.cons_append, List.takeWhile_cons_of_pos ha]
    rw [ih fun x hx => hxs x (by simp [hx])]

theorem dropWhile_stop {p : ℕ → Bool} {xs : List ℕ} {y : ℕ} (ys : List ℕ)
    (hxs : ∀ x ∈ xs, p x = true) (hy : p y = false) :
    (xs ++ y :: ys).dropWhile p = y :: ys := by
  induction xs with
  | nil => simp [List.dropWhile_cons_of_neg, hy]
  | cons a as ih =>
    have ha : p a = true := hxs a (by simp)
    simp only [List.cons_append, List.dropWhile_cons_of_pos ha]
    exact ih fun x hx => hxs x (by simp [hx])

theorem mem_trim {c : ℕ} {s : List ℕ} (h : c ∈ trim s) : c ∈ s := by
  unfold trim at h
  rw [List.mem_reverse] at h
  have h1 := (List.dropWhile_suffix isWs).subset h
  rw [List.mem_reverse] at h1
  exact (List.dropWhile_suffix isWs).subset h1

theorem getLast?_of_suffix {l l' : List ℕ} (h : l' <:+ l) (hne : l' ≠ []) :
    l'.getLast? = l.getLast? := by
  rcases h with ⟨t, rfl⟩
  exact (List.getLast?_append_of_ne_nil t hne).symm

theorem head?_dropWhile_false (p : ℕ → Bool) {l : List ℕ} :
    ∀ c ∈ (l.dropWhile p).head?, p c = false := by
  intro c hc
  have h := List.head?_dropWhile_not p l
  rw [Option.mem_def] at hc
  rw [hc] at h
  exact h

theorem trim_head? {s : List ℕ} : ∀ c ∈ (trim s).head?, isWs c = false := by
  intro c hc
  unfold trim at hc
  rw [List.head?_reverse] at hc
  set l1 := s.dropWhile isWs with hl1
  set l2 := l1.reverse.dropWhile isWs with hl2
  have hne : l2 ≠ [] := by
    intro hE
    rw [hE] at hc
    simp at hc
  have hsuffix : l2 <:+ l1.reverse := List.dropWhile_suffix isWs
  rw [getLast?_of_suffix hsuffix hne, List.getLast?_reverse] at hc
  exact head?_dropWhile_false isWs c hc

theorem trim_getLast? {s : List ℕ} : ∀ c ∈ (trim s).getLast?, isWs c = false := by
  intro c hc
  unfold trim at hc
  rw [List.getLast?_reverse] at hc
  exact head?_dropWhile_false isWs c hc

theorem trim_eq_self_of_edges {t : List ℕ}
    (hh : ∀ c ∈ t.head?, isWs c = false)
    (hl : ∀ c ∈ t.getLast?, isWs c = false) : trim t = t := by
  unfold trim
  rw [dropWhile_eq_self_of_head hh]
  rw [dropWhile_eq_self_of_head (by simpa [List.head?_reverse] using hl)]
  exact List.reverse_reverse t

theorem trim_trim (s : List ℕ) : trim (trim s) = trim s :=
  trim_eq_self_of_edges trim_head? trim_getLast?

theorem trim_eq_self_of_noWs {t : List ℕ}
    (h : ∀ c ∈ t, isWs c = false) : trim t = t := by
  refine trim_eq_self_of_edges (fun c hc => ?_) (fun c hc => ?_)
  · exact h c (List.mem_of_mem_head? hc)
  · exact h c (List.mem_of_mem_getLast? hc)

theorem tokens_of_noWs {t : List ℕ} (hne : t ≠ [])
    (h : ∀ c ∈ t, isWs c = false) : tokens t = [t] := by
  cases t with
  | nil => exact absurd rfl hne
  | cons c cs =>
    rw [tokens]
    have hc : isWs c = false := h c (by simp)
    rw [if_neg (by simp [hc])]
    have hall : ∀ d ∈ cs, (!(isWs d)) = true := by
      intro d hd
      simp [h d (List.mem_cons_of_mem c hd)]
    rw [takeWhile_eq_self_of_all hall, dropWhile_eq_nil_of_all hall, tokens]

theorem tokens_eq_nil_imp {r : List ℕ} (h : tokens r = []) :
    ∀ c ∈ r, isWs c = true := by
  induction r with
  | nil => simp
  | cons c cs ih =>
    rw [tokens] at h
    by_cases hc : isWs c
    · rw [if_pos hc] at h
      intro d hd
      rcases List.mem_cons.mp hd with rfl | hd'
      · exact hc
      · exact ih h d hd'
    · rw [if_neg hc] at h
      exact absurd h (by simp)

theorem mem_tokens {t tok : List ℕ} (h : tok ∈ tokens t) :
    tok ≠ [] ∧ ∀ c ∈ tok, isWs c = false ∧ c ∈ t := by
  induction t using Js.tokens.induct with
  | case1 => simp [tokens] at h
  | case2 c cs hc ih =>
    rw [tokens, if_pos hc] at h
    rcases ih h with ⟨h1, h2⟩
    exact ⟨h1, fun d hd => ⟨(h2 d hd).1, List.mem_cons_of_mem c (h2 d hd).2⟩⟩
  | case3 c cs hc ih =>
    rw [tokens, if_neg hc] at h
    rw [Bool.not_eq_true] at hc
    rcases List.mem_cons.mp h with rfl | h'
    · refine ⟨by simp, fun d hd => ?_⟩
      rcases List.mem_cons.mp hd with rfl | hd'
      · exact ⟨hc, by simp⟩
      · have hp := List.mem_takeWhile_imp hd'
        simp only [Bool.not_eq_eq_eq_not, Bool.not_true] at hp
        refine ⟨by simpa using hp, ?_⟩
        have : d ∈ cs := (List.takeWhile_prefix _).subset hd'
        exact List.mem_cons_of_mem c this
    · rcases ih h' with ⟨h1, h2⟩
      refine ⟨h1, fun d hd => ⟨(h2 d hd).1, ?_⟩⟩
      have : d ∈ cs := (List.dropWhile_suffix _).subset (h2 d hd).2
      exact List.mem_cons_of_mem c this

theorem noWs_of_single_token {t : List ℕ}
    (hlast : ∀ c ∈ t.getLast?, isWs c = false)
    (hhead : ∀ c ∈ t.head?, isWs c = false)
    (hne : t ≠ []) (hlen : (tokens t).length ≤ 1) :
    ∀ c ∈ t, isWs c = false := by
  cases t with
  | nil => exact absurd rfl hne
  | cons c cs =>
    have hc : isWs c = false := by
      apply hhead
      simp
    rw [tokens, if_neg (by simp [hc])] at hlen
    simp only [List.length_cons] at hlen
    have hnil : tokens (cs.dropWhile (fun d => !(isWs d))) = [] :=
      List.length_eq_zero.mp (by omega)
    have hallws : ∀ d ∈ cs.dropWhile (fun d => !(isWs d)), isWs d = true :=
      tokens_eq_nil_imp hnil
    have hdropnil : cs.dropWhile (fun d => !(isWs d)) = [] := by
      by_contra hne'
      set l' := cs.dropWhile (fun d => !(isWs d)) with hl'
      have hsuffix : l' <:+ cs := List.dropWhile_suffix _
      have hsuffix2 : l' <:+ c :: cs := hsuffix.trans (List.suffix_cons c cs)
      have hLast : l'.getLast? = (c :: cs).getLast? := getLast?_of_suffix hsuffix2 hne'
      have hmem : l'.getLast hne' ∈ l'.getLast? := by
        rw [List.getLast?_eq_getLast l' hne']
        rfl
      have hw : isWs (l'.getLast hne') = true := hallws _ (List.getLast_mem hne')
      rw [hLast] at hmem
      have := hlast _ hmem
      rw [this] at hw
      exact absurd hw (by simp)
    have hcs : cs.takeWhile (fun d => !(isWs d)) = cs := by
      have := List.takeWhile_append_dropWhile (fun d => !(isWs d)) cs
      rw [hdropnil, List.append_nil] at this
      exact this
    intro d hd
    rcases List.mem_cons.mp hd with rfl | hd'
    · exact hc
    · have hp := List.mem_takeWhile_imp (hcs ▸ hd')
      simpa using hp

/-- Embeds `toLastFirstLower` from `src/pages/api/best-props.js` (lines 18-29),
the repository's name-normalization helper, producing a lowercase
"last, first" key. The test `commaCh ∈ t` models `t.includes(',')`. -/
def toLastFirstLower (s : List ℕ) : List ℕ :=
  if s = [] then []
  else
    let t := trim s
    if commaCh ∈ t then
      lower (trim (beforeComma t)) ++ [commaCh, spaceCh] ++ lower (firstToken (afterComma t))
    else
      let toks := tokens t
      if 2 ≤ toks.length then
        lower (toks.getLastD []) ++ [commaCh, spaceCh] ++ lower (toks.headD [])
      else lower t

/-- Normal forms of `toLastFirstLower`: the empty string, a
"last, first" string (lowered last part, trimmed, comma-free; lowered
whitespace-free first part), or a single lowered token free of commas and
whitespace. -/
def IsNormalName (r : List ℕ) : Prop :=
  r = [] ∨
  (∃ L F, r = L ++ [commaCh, spaceCh] ++ F ∧
    (∀ c ∈ L, c ≠ commaCh) ∧ trim L = L ∧ lower L = L ∧
    (∀ c ∈ F, isWs c = false) ∧ lower F = F) ∨
  (r ≠ [] ∧ (∀ c ∈ r, c ≠ commaCh) ∧ (∀ c ∈ r, isWs c = false) ∧ lower r = r)

theorem isNormalName_toLastFirstLower (s : List ℕ) :
    IsNormalName (toLastFirstLower s) := by
  unfold toLastFirstLower
  by_cases hs : s = []
  · rw [if_pos hs]
    exact Or.inl rfl
  rw [if_neg hs]
  simp only
  by_cases hcomma : commaCh ∈ trim s
  · rw [if_pos hcomma]
    refine Or.inr (Or.inl ⟨_, _, rfl, ?_, ?_, lower_lower _, ?_, lower_lower _⟩)
    · intro c hc
      rcases mem_lower hc with ⟨d, hd, rfl⟩
      intro hE
      rw [lowerChar_eq_comma_iff] at hE
      have hp := List.mem_takeWhile_imp (mem_trim hd)
      rw [hE] at hp
      simp at hp
    · rw [trim_lower, trim_trim]
    · intro c hc
      rcases mem_lower hc with ⟨d, hd, rfl⟩
      rw [isWs_lowerChar]
      exact List.mem_takeWhile_imp hd |> fun hp => by simpa using hp
  · rw [if_neg hcomma]
    by_cases hlen : 2 ≤ (tokens (trim s)).length
    · rw [if_pos hlen]
      have hne : tokens (trim s) ≠ [] := by
        intro hE
        rw [hE] at hlen
        simp at hlen
      have hlastmem : (tokens (trim s)).getLastD [] ∈ tokens (trim s) := by
        rw [List.getLastD_eq_getLast? , List.getLast?_eq_getLast _ hne]
        exact List.getLast_mem hne
      have hheadmem : (tokens (trim s)).headD [] ∈ tokens (trim s) := by
        rw [List.headD_eq_head?, List.head?_eq_head hne]
        exact List.head_mem hne
      rcases mem_tokens hlastmem with ⟨-, hlast⟩
      rcases mem_tokens hheadmem with ⟨-, hhead⟩
      refine Or.inr (Or.inl ⟨_, _, rfl, ?_, ?_, lower_lower _, ?_, lower_lower _⟩)
      · intro c hc
        rcases mem_lower hc with ⟨d, hd, rfl⟩
        intro hE
        rw [lowerChar_eq_comma_iff] at hE
        exact hcomma (hE ▸ (hlast d hd).2)
      · apply trim_eq_self_of_noWs
        intro c hc
        rcases mem_lower hc with ⟨d, hd, rfl⟩
        rw [isWs_lowerChar]
        exact (hlast d hd).1
      · intro c hc
        rcases mem_lower hc with ⟨d, hd, rfl⟩
        rw [isWs_lowerChar]
        exact (hhead d hd).1
    · rw [if_neg hlen]
      by_cases htrim : trim s = []
      · rw [htrim]
        exact Or.inl rfl
      refine Or.inr (Or.inr ⟨?_, ?_, ?_, lower_lower _⟩)
      · intro hE
        have := congrArg List.length hE
        simp [lower] at this
        exact htrim this
      · intro c hc
        rcases mem_lower hc with ⟨d, hd, rfl⟩
        intro hE
        rw [lowerChar_eq_comma_iff] at hE
        exact hcomma (hE ▸ hd)
      · intro c hc
        rcases mem_lower hc with ⟨d, hd, rfl⟩
        rw [isWs_lowerChar]
        exact noWs_of_single_token trim_getLast? trim_head? htrim (by omega) d hd

theorem head?_comma_append {L rest : List ℕ} (hLt : trim L = L) :
    ∀ c ∈ (L ++ (commaCh :: rest)).head?, isWs c = false := by
  intro c hc
  cases L with
  | nil =>
    simp only [List.nil_append, List.head?_cons, Option.mem_some_iff] at hc
    rw [← hc]
    decide
  | cons a as =>
    rw [List.head?_append_of_ne_nil _ (by simp)] at hc
    have := trim_head? (s := a :: as)
    rw [hLt] at this
    exact this c hc

theorem toLastFirstLower_fixed {r : List ℕ} (h : IsNormalName r) :
    toLastFirstLower r = r := by
  rcases h with rfl | ⟨L, F, rfl, hLc, hLt, hLl, hFw, hFl⟩ | ⟨hne, hc, hw, hl⟩
  · rfl
  · have hpL : ∀ x ∈ L, (fun c => !(c == commaCh)) x = true := by
      intro x hx
      simp [hLc x hx]
    have hpy : (fun c => !(c == commaCh)) commaCh = false := by decide
    cases F with
    | nil =>
      have hr : L ++ [commaCh, spaceCh] ++ [] = L ++ (commaCh :: [spaceCh]) := by simp
      rw [hr]
      have hne : L ++ (commaCh :: [spaceCh]) ≠ [] := by simp
      have htrim : trim (L ++ (commaCh :: [spaceCh])) = L ++ [commaCh] := by
        unfold trim
        rw [dropWhile_eq_self_of_head (head?_comma_append hLt)]
        rw [List.reverse_append]
        have h32 : isWs spaceCh = true := by decide
        have h44 : ¬ isWs commaCh = true := by decide
        simp only [List.reverse_cons, List.reverse_nil, List.nil_append,
          List.cons_append, List.dropWhile_cons_of_pos h32,
          List.dropWhile_cons_of_neg h44]
        simp
      unfold toLastFirstLower
      rw [if_neg hne]
      simp only [htrim]
      rw [if_pos (by simp [commaCh])]
      have hbefore : beforeComma (L ++ [commaCh]) = L := by
        unfold beforeComma
        exact takeWhile_stop [] hpL hpy
      have hafter : afterComma (L ++ [commaCh]) = [] := by
        unfold afterComma
        rw [dropWhile_stop [] hpL hpy]
        rfl
      rw [hbefore, hafter, hLt, hLl]
      simp [firstToken, trim, lower]
    | cons f fs =>
      have hassoc : L ++ [commaCh, spaceCh] ++ (f :: fs)
          = L ++ (commaCh :: (spaceCh :: (f :: fs))) := by simp
      rw [hassoc]
      have hne : L ++ (commaCh :: (spaceCh :: (f :: fs))) ≠ [] := by simp
      have htrim : trim (L ++ (commaCh :: (spaceCh :: (f :: fs))))
          = L ++ (commaCh :: (spaceCh :: (f :: fs))) := by
        apply trim_eq_self_of_edges (head?_comma_append hLt)
        intro c hcmem
        have hsplit : L ++ (commaCh :: (spaceCh :: (f :: fs)))
            = (L ++ [commaCh, spaceCh]) ++ (f :: fs) := by simp
        rw [hsplit, List.getLast?_append_of_ne_nil _ (by simp)] at hcmem
        exact hFw c (List.mem_of_mem_getLast? hcmem)
      unfold toLastFirstLower
      rw [if_neg hne]
      simp only [htrim]
      rw [if_pos (by simp [commaCh])]
      have hbefore : beforeComma (L ++ (commaCh :: (spaceCh :: (f :: fs)))) = L := by
        unfold beforeComma
        exact takeWhile_stop _ hpL hpy
      have hafter : afterComma (L ++ (commaCh :: (spaceCh :: (f :: fs))))
          = spaceCh :: (f :: fs) := by
        unfold afterComma
        rw [dropWhile_stop _ hpL hpy]
        rfl
      rw [hbefore, hafter, hLt, hLl]
      have htrimF : trim (spaceCh :: (f :: fs)) = f :: fs := by
        unfold trim
        have h32 : isWs spaceCh = true := by decide
        rw [List.dropWhile_cons_of_pos h32]
        have hinner : List.dropWhile isWs (f :: fs) = f :: fs :=
          dropWhile_eq_self_of_head (fun c hcm => hFw c (List.mem_of_mem_head? hcm))
        have hrev : List.dropWhile isWs (f :: fs).reverse = (f :: fs).reverse :=
          dropWhile_eq_self_of_head (fun c hcm => by
            rw [List.head?_reverse] at hcm
            exact hFw c (List.mem_of_mem_getLast? hcm))
        rw [hinner, hrev, List.reverse_reverse]
      unfold firstToken
      rw [htrimF]
      rw [takeWhile_eq_self_of_all (fun x hx => by simp [hFw x hx])]
      rw [hFl]
      exact hassoc
  · unfold toLastFirstLower
    rw [if_neg hne]
    have htrim : trim r = r := trim_eq_self_of_noWs hw
    simp only [htrim]
    rw [if_neg (fun hmem => hc commaCh hmem rfl)]
    rw [tokens_of_noWs hne hw]
    simp only [List.length_cons, List.length_nil]
    rw [if_neg (by omega)]
    exact hl

/-- C6. Name normalization is idempotent: applying `toLastFirstLower` twice
equals applying it once, for every input string. -/
theorem toLastFirstLower_idempotent (s : List ℕ) :
    toLastFirstLower (toLastFirstLower s) = toLastFirstLower s :=
  toLastFirstLower_fixed (isNormalName_toLastFirstLower s)

end Js

namespace SplitBatters

/-- Row of `batters_today.csv` as read by
`src/scripts/splitbatters.csv` (`split_batters_by_team_location`). -/
structure BatterRow where
  name : List ℕ
  team : List ℕ
deriving DecidableEq

/-- Row of `todaysgames_normalized.csv`: one scheduled game. -/
structure GameRow where
  home_team : List ℕ
  away_team : List ℕ
deriving DecidableEq

/-- pandas `Series.unique()`: values in order of first occurrence. -/
def uniqueVals (l : List (List ℕ)) : List (List ℕ) :=
  l.foldl (fun acc x => if x ∈ acc then acc else acc ++ [x]) []

theorem mem_foldl_unique (l : List (List ℕ)) :
    ∀ acc x, (x ∈ l.foldl (fun acc x => if x ∈ acc then acc else acc ++ [x]) acc)
      ↔ x ∈ acc ∨ x ∈ l := by
  induction l with
  | nil => simp
  | cons y ys ih =>
    intro acc x
    simp only [List.foldl_cons]
    by_cases hy : y ∈ acc
    · rw [if_pos hy, ih]
      constructor
      · rintro (h | h)
        · exact Or.inl h
        · exact Or.inr (List.mem_cons_of_mem y h)
      · rintro (h | h)
        · exact Or.inl h
        · rcases List.mem_cons.mp h with rfl | h'
          · exact Or.inl hy
          · exact Or.inr h'
    · rw [if_neg hy, ih]
      simp only [List.mem_append, List.mem_singleton, List.mem_cons]
      tauto

theorem mem_uniqueVals {x : List ℕ} {l : List (List ℕ)} :
    x ∈ uniqueVals l ↔ x ∈ l := by
  unfold uniqueVals
  rw [mem_foldl_unique]
  simp

/-- Embeds `split_batters_by_team_location` (lines 29-33): batters whose team
is among the unique home teams go to the home output, batters whose team is
among the unique away teams go to the away output. -/
def splitBattersByTeamLocation (batters : List BatterRow) (games : List GameRow) :
    List BatterRow × List BatterRow :=
  let home_teams := uniqueVals (games.map (fun g => g.home_team))
  let away_teams := uniqueVals (games.map (fun g => g.away_team))
  (batters.filter (fun b => decide (b.team ∈ home_teams)),
   batters.filter (fun b => decide (b.team ∈ away_teams)))

/-- C8. A batter whose team is neither the home team nor the away team of any
scheduled game is excluded from both the home and the away output. -/
theorem splitBatters_excludes_unscheduled
    (batters : List BatterRow) (games : List GameRow) (b : BatterRow)
    (h : ∀ g ∈ games, b.team ≠ g.home_team ∧ b.team ≠ g.away_team) :
    b ∉ (splitBattersByTeamLocation batters games).1 ∧
    b ∉ (splitBattersByTeamLocation batters games).2 := by
  unfold splitBattersByTeamLocation
  constructor
  · intro hmem
    have hp := (List.mem_filter.mp hmem).2
    rw [decide_eq_true_iff, mem_uniqueVals, List.mem_map] at hp
    rcases hp with ⟨g, hg, hgteam⟩
    exact (h g hg).1 hgteam.symm
  · intro hmem
    have hp := (List.mem_filter.mp hmem).2
    rw [decide_eq_true_iff, mem_uniqueVals, List.mem_map] at hp
    rcases hp with ⟨g, hg, hgteam⟩
    exact (h g hg).2 hgteam.symm

/-- C8 witness: a batter on team code [84,66] with a single scheduled game
[78,89] at [66,79] is excluded from both outputs. -/
theorem splitBatters_excludes_unscheduled_witness :
    (∀ g ∈ [GameRow.mk [78, 89] [66, 79]],
      ([84, 66] : List ℕ) ≠ g.home_team ∧ ([84, 66] : List ℕ) ≠ g.away_team) ∧
    BatterRow.mk [106] [84, 66] ∉
      (splitBattersByTeamLocation [BatterRow.mk [106] [84, 66]]
        [GameRow.mk [78, 89] [66, 79]]).1 ∧
    BatterRow.mk [106] [84, 66] ∉
      (splitBattersByTeamLocation [BatterRow.mk [106] [84, 66]]
        [GameRow.mk [78, 89] [66, 79]]).2 :=
  ⟨by decide,
   (splitBatters_excludes_unscheduled _ _ _ (by decide)).1,
   (splitBatters_excludes_unscheduled _ _ _ (by decide)).2⟩

end SplitBatters

namespace BestPropsApi

/-- Columns of `player_props_history.csv` read by the handler of
`src/pages/api/best-props.js`. -/
structure HistRow where
  bet_type : List ℕ
  player_name : List ℕ
  team : List ℕ
  prop_type : List ℕ
  prop_line : List ℕ
deriving DecidableEq

/-- Object pushed to `out` by the handler (lines 73-80). -/
structure OutRow where
  playerId : List ℕ
  player_name : List ℕ
  team : List ℕ
  prop_type : List ℕ
  prop_line : List ℕ
deriving DecidableEq

/-- Code points of the string "best prop". -/
def bestPropStr : List ℕ := [98, 101, 115, 116, 32, 112, 114, 111, 112]

/-- Output row built from a history row; `nameToId` models the
`nameToId.get(key) || ''` lookup built from the projections file. -/
def mkOut (nameToId : List ℕ → List ℕ) (r : HistRow) : OutRow :=
  { playerId := nameToId (Js.toLastFirstLower r.player_name)
    player_name := r.player_name
    team := r.team
    prop_type := r.prop_type
    prop_line := r.prop_line }

/-- Embeds the selection loop of best-props.js (lines 64-82): skip rows whose
trimmed lowercased `bet_type` is not "best prop", push the rest, and break
once `out.length >= n` (the code uses n = 3). -/
def selectLoop (n : ℕ) (nameToId : List ℕ → List ℕ) :
    List HistRow → List OutRow → List OutRow
  | [], out => out
  | r :: rs, out =>
    if Js.lower (Js.trim r.bet_type) = bestPropStr then
      let out' := out ++ [mkOut nameToId r]
      if n ≤ out'.length then out' else selectLoop n nameToId rs out'
    else selectLoop n nameToId rs out

/-- The handler's Best-Prop selection with the accumulator starting empty. -/
def selectBest (n : ℕ) (nameToId : List ℕ → List ℕ) (rows : List HistRow) :
    List OutRow :=
  selectLoop n nameToId rows []

/-- Embeds the handler's result (status 200 body): an empty history file
returns `[]` (line 37), otherwise the selected list. The bet_type-column
check (line 62) is modelled as always passing because rows are structured. -/
def handler (nameToId : List ℕ → List ℕ) (rows : List HistRow) :
    Except (List ℕ) (List OutRow) :=
  if rows = [] then Except.ok [] else Except.ok (selectBest 3 nameToId rows)

theorem selectLoop_length (n : ℕ) (f : List ℕ → List ℕ) (rows : List HistRow) :
    ∀ out : List OutRow, out.length < n → (selectLoop n f rows out).length ≤ n := by
  induction rows with
  | nil =>
    intro out h
    exact Nat.le_of_lt h
  | cons r rs ih =>
    intro out h
    unfold selectLoop
    split
    · simp only
      split
      · rename_i hstop
        simp only [List.length_append, List.length_cons, List.length_nil]
        omega
      · rename_i hgo
        apply ih
        simp only [List.length_append, List.length_cons, List.length_nil] at hgo ⊢
        omega
    · exact ih out h

end BestPropsApi

namespace GameTopPropsApi

/-- Columns of `player_props_history.csv` read by the handler of
`src/pages/api/game-top-props.js` (first handler in the file). -/
structure HistRow where
  player_name : List ℕ
  team : List ℕ
  prop_type : List ℕ
  prop_line : List ℕ
deriving DecidableEq

/-- Card shape produced by the `mapped` step (lines 67-78). -/
structure Card where
  playerId : List ℕ
  name : List ℕ
  team : List ℕ
  line : List ℕ
deriving DecidableEq

/-- Embeds `toFirstLast` (lines 24-31): convert "Last, First ..." to
"First Last"; strings without a comma are returned trimmed. -/
def toFirstLast (s : List ℕ) : List ℕ :=
  if s = [] then []
  else
    let t := Js.trim s
    if Js.commaCh ∈ t then
      let last := Js.beforeComma t
      let first := Js.firstToken (Js.afterComma t)
      if first = [] then last
      else if last = [] then first
      else first ++ [Js.spaceCh] ++ last
    else t

/-- ASCII action of JavaScript `toUpperCase()` on a single code point. -/
def upperChar (c : ℕ) : ℕ := if 97 ≤ c ∧ c ≤ 122 then c - 32 else c

/-- Membership in the regex class `\w` (ASCII word characters). -/
def isWordChar (c : ℕ) : Bool :=
  (48 ≤ c && c ≤ 57) || (65 ≤ c && c ≤ 90) || (97 ≤ c && c ≤ 122) || c == 95

/-- JavaScript `.replace(/\b\w/g, c => c.toUpperCase())`: uppercase every word
character preceded by a non-word character (the flag carries whether the
previous character was a word character). -/
def capWordStarts (prevWord : Bool) : List ℕ → List ℕ
  | [] => []
  | c :: cs =>
    (if isWordChar c && !prevWord then upperChar c else c) :: capWordStarts (isWordChar c) cs

/-- Embeds `prettify` (line 32): replace underscores with spaces, then
capitalize the first letter of every word. -/
def prettify (t : List ℕ) : List ℕ :=
  capWordStarts false (t.map (fun c => if c = 95 then Js.spaceCh else c))

/-- Code points of the string " Over ". -/
def overStr : List ℕ := [32, 79, 118, 101, 114, 32]

/-- Line text of a card (line 76): `prettify(type) Over line` when a line
value is present, else `prettify(type)`. -/
def lineText (r : HistRow) : List ℕ :=
  if r.prop_line ≠ [] then prettify r.prop_type ++ overStr ++ r.prop_line
  else prettify r.prop_type

/-- Team filter of lines 61-64: the row's trimmed lowercased team equals the
(already trimmed and lowercased) home or away query parameter. -/
def matchesTeam (home away : List ℕ) (r : HistRow) : Bool :=
  Js.lower (Js.trim r.team) == home || Js.lower (Js.trim r.team) == away

/-- Card built from a row (lines 67-78); `playerId` is the empty string
(line 73: mapping deferred in the source). -/
def toCard (r : HistRow) : Card :=
  { playerId := [], name := toFirstLast r.player_name, team := r.team, line := lineText r }

/-- The `filtered`-then-`mapped` pipeline of lines 61-78. -/
def mapped (home away : List ℕ) (rows : List HistRow) : List Card :=
  (rows.filter (matchesTeam home away)).map toCard

/-- Dedup key of line 83: `m.name || m.team + m.line`. -/
def cardKey (m : Card) : List ℕ := if m.name ≠ [] then m.name else m.team ++ m.line

/-- Embeds the dedup-and-take loop of lines 81-86: walk the mapped cards,
keep a card when its key is unseen, and break as soon as `out.length === n`
(the code uses n = 3). -/
def dedupLoop (n : ℕ) : List Card → List (List ℕ) → List Card → List Card
  | [], _, out => out
  | m :: ms, seen, out =>
    if cardKey m ∈ seen then
      if out.length = n then out else dedupLoop n ms seen out
    else
      let out' := out ++ [m]
      if out'.length = n then out' else dedupLoop n ms (seen ++ [cardKey m]) out'

/-- Top-props selection for one game: filter by team, map to cards, dedup by
key, stop at n. -/
def select (n : ℕ) (home away : List ℕ) (rows : List HistRow) : List Card :=
  dedupLoop n (mapped home away rows) [] []

/-- Error responses of the handler: missing query parameters (status 400). -/
inductive HandlerError
  | badRequest
deriving DecidableEq

/-- Embeds the handler result: 400 when a query parameter is blank (line 43),
an empty list when the history file has no rows (line 48), else the selected
cards. Column checks (line 56) always pass on structured rows. -/
def handler (home away : List ℕ) (rows : List HistRow) :
    Except HandlerError (List Card) :=
  if home = [] ∨ away = [] then Except.error HandlerError.badRequest
  else if rows = [] then Except.ok []
  else Except.ok (select 3 home away rows)

theorem dedupLoop_length (n : ℕ) (ms : List Card) :
    ∀ (seen : List (List ℕ)) (out : List Card),
      out.length < n → (dedupLoop n ms seen out).length ≤ n := by
  induction ms with
  | nil =>
    intro seen out h
    exact Nat.le_of_lt h
  | cons m ms ih =>
    intro seen out h
    unfold dedupLoop
    split
    · rw [if_neg (by omega)]
      exact ih seen out h
    · simp only
      split
      · rename_i hstop
        omega
      · rename_i hgo
        apply ih
        simp only [List.length_append, List.length_cons, List.length_nil] at hgo ⊢
        omega

theorem dedupLoop_nodup (n : ℕ) (ms : List Card) :
    ∀ (seen : List (List ℕ)) (out : List Card),
      (∀ k ∈ out.map cardKey, k ∈ seen) → (out.map cardKey).Nodup →
      ((dedupLoop n ms seen out).map cardKey).Nodup := by
  induction ms with
  | nil =>
    intro seen out _ hnd
    exact hnd
  | cons m ms ih =>
    intro seen out hsub hnd
    unfold dedupLoop
    split
    · split
      · exact hnd
      · exact ih seen out hsub hnd
    · rename_i hnew
      simp only
      have hout' : ((out ++ [m]).map cardKey).Nodup := by
        rw [List.map_append]
        rw [List.nodup_append]
        refine ⟨hnd, by simp, ?_⟩
        intro k hk
        simp only [List.map_cons, List.map_nil, List.mem_cons,
          List.not_mem_nil, or_false]
        intro hkey
        exact hnew (hkey ▸ hsub k hk)
      split
      · exact hout'
      · apply ih
        · intro k hk
          rw [List.map_append] at hk
          rcases List.mem_append.mp hk with hk' | hk'
          · exact List.mem_append_left _ (hsub k hk')
          · simp only [List.map_cons, List.map_nil, List.mem_cons,
              List.not_mem_nil, or_false] at hk'
            exact hk' ▸ List.mem_append_right _ (by simp)
        · exact hout'

theorem dedupLoop_appends (n : ℕ) (ms : List Card) :
    ∀ (seen : List (List ℕ)) (out : List Card),
      ∃ r, dedupLoop n ms seen out = out ++ r ∧ r.Sublist ms := by
  induction ms with
  | nil =>
    intro seen out
    exact ⟨[], by simp [dedupLoop]⟩
  | cons m ms ih =>
    intro seen out
    unfold dedupLoop
    split
    · split
      · exact ⟨[], by simp⟩
      · rcases ih seen out with ⟨r, hr, hsub⟩
        exact ⟨r, hr, hsub.cons m⟩
    · simp only
      split
      · exact ⟨[m], rfl, by simp⟩
      · rcases ih (seen ++ [cardKey m]) (out ++ [m]) with ⟨r, hr, hsub⟩
        refine ⟨m :: r, ?_, hsub.cons₂ m⟩
        rw [hr, List.append_assoc]
        rfl

end GameTopPropsApi

namespace AppComponent

/-- Prop entry of the `topProps` arrays in `src/components/App.jsx`. -/
structure PropEntry where
  playerId : ℕ
  name : List ℕ
  line : List ℕ
  probability : ℚ
deriving DecidableEq

/-- Game object of App.jsx; fields not read by the top-3 computation
(game_time, temperature, venue, projectedScore) are omitted. -/
structure Game where
  game_id : ℕ
  away_team : List ℕ
  home_team : List ℕ
  topProps : List PropEntry
deriving DecidableEq

/-- Descending-probability comparator: JavaScript
`(a, b) => b.probability - a.probability` orders `a` before `b` exactly when
`b.probability ≤ a.probability`; `Array.prototype.sort` is stable. -/
def byProbDesc (a b : PropEntry) : Bool := decide (b.probability ≤ a.probability)

/-- Embeds lines 44-47 of App.jsx: flatten all games' topProps, stable-sort
descending by probability, keep the first three. -/
def top3Props (games : List Game) : List PropEntry :=
  let allProps := games.flatMap (fun g => g.topProps)
  let sortedProps := allProps.mergeSort byProbDesc
  sortedProps.take 3

/-- The output of App.jsx's top-3 computation is sorted by non-increasing
probability. -/
theorem top3Props_sorted (games : List Game) :
    List.Sorted (fun a b : PropEntry => b.probability ≤ a.probability)
      (top3Props games) := by
  unfold top3Props List.Sorted
  apply List.Pairwise.sublist (List.take_sublist _ _)
  have h := @List.sorted_mergeSort PropEntry byProbDesc
    (fun a b c hab hbc => by
      simp only [byProbDesc, decide_eq_true_iff] at hab hbc ⊢
      exact le_trans hbc hab)
    (fun a b => by
      simp only [byProbDesc, Bool.or_eq_true, decide_eq_true_iff]
      exact le_total _ _)
    (games.flatMap (fun g => g.topProps))
  exact h.imp fun hab => by
    simpa [byProbDesc] using hab

theorem top3Props_length (games : List Game) : (top3Props games).length ≤ 3 :=
  List.length_take_le _ _

end AppComponent

namespace AppJs

/-- Row of `player_props_history.csv` as consumed by `renderBestProps` in
`src/js/app.js`; `playerId` is the id column (lines 29: the code reads
`r.playerId || r.player_id`, modelled as one field). -/
structure Row where
  playerId : List ℕ
  player_name : List ℕ
  team : List ℕ
  prop_type : List ℕ
deriving DecidableEq

/-- Embeds the unique-by-playerId loop of `src/js/app.js` (lines 26-33): skip
rows whose trimmed id is empty or already seen, keep the rest. -/
def uniqueLoop : List Row → List (List ℕ) → List Row → List Row
  | [], _, acc => acc
  | r :: rs, seen, acc =>
    let id := Js.trim r.playerId
    if id = [] ∨ id ∈ seen then uniqueLoop rs seen acc
    else uniqueLoop rs (seen ++ [id]) (acc ++ [r])

/-- The deduplicated list `unique` of `renderBestProps`. -/
def uniqueById (rows : List Row) : List Row := uniqueLoop rows [] []

theorem uniqueLoop_fixpoint :
    ∀ (l : List Row) (seen : List (List ℕ)) (acc : List Row),
      (∀ r ∈ l, Js.trim r.playerId ≠ [] ∧ Js.trim r.playerId ∉ seen) →
      (l.map (fun r => Js.trim r.playerId)).Nodup →
      uniqueLoop l seen acc = acc ++ l := by
  intro l
  induction l with
  | nil =>
    intro seen acc _ _
    simp [uniqueLoop]
  | cons r rs ih =>
    intro seen acc hok hnd
    unfold uniqueLoop
    rcases hok r (by simp) with ⟨hne, hnotseen⟩
    rw [if_neg (by simp [hne, hnotseen])]
    rw [List.map_cons, List.nodup_cons] at hnd
    rw [ih _ _ (fun x hx => ⟨(hok x (List.mem_cons_of_mem r hx)).1, ?_⟩) hnd.2]
    · simp
    · simp only [List.mem_append, List.mem_singleton]
      rintro ((h | h) : _ ∨ _)
      · exact (hok x (List.mem_cons_of_mem r hx)).2 h
      · exact hnd.1 (h ▸ List.mem_map_of_mem _ hx)

theorem uniqueLoop_invariant :
    ∀ (l : List Row) (seen : List (List ℕ)) (acc : List Row),
      (∀ r ∈ acc, Js.trim r.playerId ≠ [] ∧ Js.trim r.playerId ∈ seen) →
      (acc.map (fun r => Js.trim r.playerId)).Nodup →
      (∀ r ∈ uniqueLoop l seen acc, Js.trim r.playerId ≠ []) ∧
      ((uniqueLoop l seen acc).map (fun r => Js.trim r.playerId)).Nodup := by
  intro l
  induction l with
  | nil =>
    intro seen acc hacc hnd
    exact ⟨fun r hr => (hacc r hr).1, hnd⟩
  | cons r rs ih =>
    intro seen acc hacc hnd
    unfold uniqueLoop
    dsimp only
    split
    · exact ih seen acc hacc hnd
    · rename_i hcond
      rw [not_or] at hcond
      apply ih
      · intro x hx
        rcases List.mem_append.mp hx with hx' | hx'
        · exact ⟨(hacc x hx').1, List.mem_append_left _ (hacc x hx').2⟩
        · simp only [List.mem_singleton] at hx'
          subst hx'
          exact ⟨hcond.1, List.mem_append_right _ (by simp)⟩
      · rw [List.map_append, List.nodup_append]
        refine ⟨hnd, by simp, ?_⟩
        intro k hk
        simp only [List.map_cons, List.map_nil, List.mem_cons,
          List.not_mem_nil, or_false]
        intro hkey
        rcases List.mem_map.mp hk with ⟨x, hx, rfl⟩
        exact hcond.2 (hkey ▸ (hacc x hx).2)

theorem uniqueById_idem (rows : List Row) :
    uniqueById (uniqueById rows) = uniqueById rows := by
  unfold uniqueById
  rcases uniqueLoop_invariant rows [] [] (by simp) (by simp) with ⟨h1, h2⟩
  rw [uniqueLoop_fixpoint _ [] [] (fun r hr => ⟨h1 r hr, by simp⟩) h2]
  simp

end AppJs

namespace GameTopPropsApi

theorem dedupLoop_fixpoint (n : ℕ) :
    ∀ (l : List Card) (seen : List (List ℕ)) (out : List Card),
      (∀ m ∈ l, cardKey m ∉ seen) → (l.map cardKey).Nodup →
      out.length + l.length ≤ n →
      dedupLoop n l seen out = out ++ l := by
  intro l
  induction l with
  | nil =>
    intro seen out _ _ _
    simp [dedupLoop]
  | cons m ms ih =>
    intro seen out hnotseen hnd hlen
    unfold dedupLoop
    rw [if_neg (hnotseen m (by simp))]
    simp only [List.length_cons] at hlen
    rw [List.map_cons, List.nodup_cons] at hnd
    dsimp only
    split
    · rename_i hstop
      simp only [List.length_append, List.length_cons, List.length_nil] at hstop
      have hms : ms = [] := List.length_eq_zero.mp (by omega)
      subst hms
      simp
    · rw [ih _ _ (fun x hx => ?_) hnd.2 (by simp; omega)]
      · simp
      · simp only [List.mem_append, List.mem_singleton]
        rintro ((h | h) : _ ∨ _)
        · exact hnotseen x (List.mem_cons_of_mem m hx) h
        · exact hnd.1 (h ▸ List.mem_map_of_mem _ hx)

end GameTopPropsApi

namespace GameProjection

/-- JavaScript `+(x).toFixed(2)`: round to two decimal places (ties toward
positive infinity, matching `toFixed`). -/
def round2 (x : ℚ) : ℚ := (round (x * 100) : ℚ) / 100

theorem round2_idem (x : ℚ) : round2 (round2 x) = round2 x := by
  unfold round2
  rw [div_mul_cancel₀ _ (by norm_num : (100 : ℚ) ≠ 0)]
  rw [round_intCast]

/-- Response shape of `src/pages/api/game-projection.js`:
`{ home, away, total }` with `null` modelled as `none`. -/
structure Projection where
  home : Option ℚ
  away : Option ℚ
  total : Option ℚ
deriving DecidableEq

/-- Embeds lines 78-92 of `src/pages/api/game-projection.js`. `none` models a
non-finite `Number(...)` result (missing column or unparsable value). -/
def computeProjection (homeVal awayVal totalVal : Option ℚ) : Projection :=
  let total : Option ℚ :=
    match totalVal with
    | some t => some t
    | none =>
      match homeVal, awayVal with
      | some h, some a => some (round2 (h + a))
      | _, _ => none
  { home := homeVal.map round2
    away := awayVal.map round2
    total := total.map round2 }

/-- C10. When the matched row has finite home and away values and no finite
total, the returned total is the sum rounded to two decimals; when there is no
finite total and not both scores are finite, the returned total is null. -/
theorem computeProjection_total
    (hv av : Option ℚ) (hmiss : hv = none ∨ av = none) :
    (∀ h a : ℚ, (computeProjection (some h) (some a) none).total
      = some (round2 (h + a))) ∧
    (computeProjection hv av none).total = none := by
  constructor
  · intro h a
    unfold computeProjection
    simp [round2_idem]
  · rcases hmiss with rfl | rfl
    · rfl
    · cases hv <;> rfl

/-- C10 witness: concrete evaluation with home 3.14, away 2 and missing total,
and with a missing away value. -/
theorem computeProjection_total_witness :
    ((computeProjection (some (157 / 50)) (some 2) none).total
      = some (round2 (157 / 50 + 2))) ∧
    (computeProjection (some 1) none none).total = none :=
  ⟨(computeProjection_total (some 1) none (Or.inr rfl)).1 (157 / 50) 2,
   (computeProjection_total (some 1) none (Or.inr rfl)).2⟩

end GameProjection

namespace Js

/-- Error taxonomy entry named by the specification for name normalization. -/
inductive NameNormError
  | malformedName
deriving DecidableEq

/-- Call result of `toLastFirstLower`. The JavaScript body of
`toLastFirstLower` contains no throw statement and calls no throwing
operation, so every invocation returns normally with the string value. -/
def toLastFirstLowerResult (s : List ℕ) : Except NameNormError (List ℕ) :=
  Except.ok (toLastFirstLower s)

/-- C9 counterexample. The claim says normalization fails with
`MalformedNameError` on the empty string and on strings with no alphabetic
token; on the inputs "" and "123" the code instead returns normally
(with "" and "123" respectively). -/
theorem toLastFirstLower_no_failure_on_malformed :
    toLastFirstLowerResult [] = Except.ok [] ∧
    toLastFirstLowerResult [49, 50, 51] = Except.ok [49, 50, 51] := by
  constructor
  · rfl
  · unfold toLastFirstLowerResult
    simp [toLastFirstLower, trim, tokens, isWs, lower, lowerChar, commaCh]

/-- C9 amended. Name normalization never fails: every input string, empty or
not, alphabetic or not, produces a normal (ok) result, and the empty string
maps to the empty string. -/
theorem toLastFirstLower_total :
    (∀ s : List ℕ, ∃ t, toLastFirstLowerResult s = Except.ok t) ∧
    toLastFirstLower [] = [] :=
  ⟨fun s => ⟨toLastFirstLower s, rfl⟩, rfl⟩

end Js

/-- Row with `bet_type` "best prop" and player name "s, j", duplicated in the
history file. -/
def sampleBestRow : BestPropsApi.HistRow :=
  { bet_type := BestPropsApi.bestPropStr
    player_name := [115, 44, 32, 106]
    team := []
    prop_type := []
    prop_line := [] }

/-- C2 counterexample. The best-props.js selection loop performs no
deduplication: feeding it the same "best prop" row twice produces two output
entries with the same player identity (player_name). -/
theorem bestProps_keeps_duplicate_player :
    ¬ (((BestPropsApi.selectBest 3 (fun _ => []) [sampleBestRow, sampleBestRow]).map
      (fun o => o.player_name)).Nodup) := by
  decide

/-- C2 amended. The best-props.js selector output has length at most its
configured bound 3 (but may repeat a player); the game-top-props.js selector
output has length at most 3 and no two entries share a dedup key
(name, or team ++ line when the name is empty). -/
theorem selector_bound_and_dedup :
    (∀ (f : List ℕ → List ℕ) (rows : List BestPropsApi.HistRow),
      (BestPropsApi.selectBest 3 f rows).length ≤ 3) ∧
    (∀ (home away : List ℕ) (rows : List GameTopPropsApi.HistRow),
      (GameTopPropsApi.select 3 home away rows).length ≤ 3 ∧
      ((GameTopPropsApi.select 3 home away rows).map GameTopPropsApi.cardKey).Nodup) :=
  ⟨fun f rows => BestPropsApi.selectLoop_length 3 f rows [] (by simp),
   fun home away rows =>
     ⟨GameTopPropsApi.dedupLoop_length 3 _ [] [] (by simp),
      GameTopPropsApi.dedupLoop_nodup 3 _ [] [] (by simp) (by simp)⟩⟩

/-- Game whose topProps contain the same player twice with the two highest
probabilities. -/
def sampleDupGame : AppComponent.Game :=
  { game_id := 1
    away_team := []
    home_team := []
    topProps := [⟨1, [97], [], 90⟩, ⟨1, [97], [], 80⟩, ⟨2, [98], [], 70⟩] }

/-- C3 counterexample. The App.jsx selector sorts by probability and takes the
first three without skipping entries whose player has already been kept: a
player with the two best probabilities appears twice in the output. -/
theorem appTop3_keeps_duplicate_player :
    ¬ ((AppComponent.top3Props [sampleDupGame]).map
      (fun p => p.playerId)).Nodup := by
  have h : AppComponent.top3Props [sampleDupGame]
      = [⟨1, [97], [], 90⟩, ⟨1, [97], [], 80⟩, ⟨2, [98], [], 70⟩] := by
    unfold AppComponent.top3Props
    dsimp only
    rw [show ([sampleDupGame] : List AppComponent.Game).flatMap
        (fun g => g.topProps)
      = [⟨1, [97], [], 90⟩, ⟨1, [97], [], 80⟩, ⟨2, [98], [], 70⟩] from rfl]
    rw [List.mergeSort_of_sorted (by decide)]
    rfl
  rw [h]
  decide

/-- C3 amended. The App.jsx selector stable-sorts all candidate props in
descending probability order (ties keep input order) and keeps the first 3
without skipping duplicate players, so its output is descending in
probability; the game-top-props.js selector performs no sort: its output is a
subsequence of the filtered-and-mapped candidates in file order. -/
theorem selector_sort_and_order :
    (∀ games : List AppComponent.Game,
      List.Sorted (fun a b : AppComponent.PropEntry => b.probability ≤ a.probability)
        (AppComponent.top3Props games) ∧
      (AppComponent.top3Props games).length ≤ 3) ∧
    (∀ (n : ℕ) (home away : List ℕ) (rows : List GameTopPropsApi.HistRow),
      (GameTopPropsApi.select n home away rows).Sublist
        (GameTopPropsApi.mapped home away rows)) :=
  ⟨fun games => ⟨AppComponent.top3Props_sorted games, AppComponent.top3Props_length games⟩,
   fun n home away rows => by
     rcases GameTopPropsApi.dedupLoop_appends n
       (GameTopPropsApi.mapped home away rows) [] [] with ⟨r, hr, hsub⟩
     unfold GameTopPropsApi.select
     rw [hr]
     simpa using hsub⟩

/-- C5. Empty candidate lists yield empty outputs and no error: both selection
loops return `[]` on empty input for every configured bound, the best-props
handler answers ok-[] on an empty history file, and the game-top-props handler
answers ok-[] on an empty history file whenever its query parameters are
present. -/
theorem empty_candidates_empty_output :
    (∀ f : List ℕ → List ℕ, BestPropsApi.handler f [] = Except.ok []) ∧
    (∀ (n : ℕ) (f : List ℕ → List ℕ), BestPropsApi.selectBest n f [] = []) ∧
    (∀ (n : ℕ) (home away : List ℕ), GameTopPropsApi.select n home away [] = []) ∧
    (∀ home away : List ℕ, home ≠ [] → away ≠ [] →
      GameTopPropsApi.handler home away [] = Except.ok []) := by
  refine ⟨fun f => rfl, fun n f => rfl, fun n home away => rfl, ?_⟩
  intro home away hh ha
  unfold GameTopPropsApi.handler
  rw [if_neg (by simp [hh, ha])]
  rfl

/-- C5 witness: the game-top-props handler on query parameters "h" and "a"
with an empty history returns ok-[]. -/
theorem empty_candidates_empty_output_witness :
    ([104] : List ℕ) ≠ [] ∧ ([97] : List ℕ) ≠ [] ∧
    GameTopPropsApi.handler [104] [97] [] = Except.ok [] :=
  ⟨by decide, by decide,
   empty_candidates_empty_output.2.2.2 [104] [97] (by decide) (by decide)⟩

/-- C7. Both deduplicators are idempotent: the game-top-props.js
dedup-and-take-3 loop and the js/app.js unique-by-playerId loop return their
own output unchanged when run again. -/
theorem deduplicator_idempotent :
    (∀ ms : List GameTopPropsApi.Card,
      GameTopPropsApi.dedupLoop 3 (GameTopPropsApi.dedupLoop 3 ms [] []) [] [] =
        GameTopPropsApi.dedupLoop 3 ms [] []) ∧
    (∀ rows : List AppJs.Row,
      AppJs.uniqueById (AppJs.uniqueById rows) = AppJs.uniqueById rows) := by
  constructor
  · intro ms
    have h1 := GameTopPropsApi.dedupLoop_nodup 3 ms [] [] (by simp) (by simp)
    have h2 := GameTopPropsApi.dedupLoop_length 3 ms [] [] (by simp)
    have h3 := GameTopPropsApi.dedupLoop_fixpoint 3
      (GameTopPropsApi.dedupLoop 3 ms [] []) [] [] (by simp) h1 (by simpa using h2)
    simpa using h3
  · exact AppJs.uniqueById_idem

namespace GameCards

/-- Cohort mean of `zScore` in `src/pages/api/game-cards.js` (lines 6-11).
In the source, `valid` filters out NaN entries; in this real-valued model
every entry is a number, so `valid` is the whole series. -/
noncomputable def mean (series : List ℝ) : ℝ := series.sum / series.length

/-- Cohort standard deviation (line 9): square root of the population
variance of the series. -/
noncomputable def std (series : List ℝ) : ℝ :=
  Real.sqrt ((series.map (fun x => (x - mean series) ^ 2)).sum / series.length)

/-- Embeds `zScore` (line 10): `series.map(x => std ? (x - mean) / std : 0)`. -/
noncomputable def zScore (series : List ℝ) : List ℝ :=
  series.map (fun x => if std series = 0 then 0 else (x - mean series) / std series)

/-- Embeds `zscore` from the second handler of game-cards.js (lines 145-148):
`if (!val || !mean || !std || std == 0) return 0` — with finite rational
inputs, JavaScript `!x` means `x = 0`, so the guard also fires when the value
or the mean is 0, not only when the standard deviation is 0. -/
def zscore (val mean std : ℚ) : ℚ :=
  if val = 0 ∨ mean = 0 ∨ std = 0 then 0 else (val - mean) / std

theorem std_of_constant (series : List ℝ) (c : ℝ)
    (h : ∀ x ∈ series, x = c) : std series = 0 := by
  cases series with
  | nil =>
    unfold std
    simp [Real.sqrt_eq_zero']
  | cons a as =>
    have hlen : ((a :: as).length : ℝ) ≠ 0 :=
      Nat.cast_ne_zero.mpr (by simp)
    have hsum : (a :: as).sum = ((a :: as).length : ℝ) * c := by
      rw [List.sum_eq_card_nsmul _ c h]
      simp [nsmul_eq_mul]
    have hmean : mean (a :: as) = c := by
      unfold mean
      rw [hsum, mul_comm, mul_div_assoc, div_self hlen, mul_one]
    have hdev : ((a :: as).map (fun x => (x - mean (a :: as)) ^ 2)).sum = 0 := by
      apply List.sum_eq_zero
      intro y hy
      rcases List.mem_map.mp hy with ⟨x, hx, rfl⟩
      rw [hmean, h x hx]
      ring
    unfold std
    rw [hdev]
    simp

end GameCards

/-- C4 counterexample. The second z-score implementation of game-cards.js
returns 0 whenever the player value is 0 (JavaScript `!val`), even though the
cohort standard deviation is nonzero: with value 0, mean 5, std 2 it returns
0 instead of (0 - 5) / 2. -/
theorem zscore_zero_value_counterexample :
    GameCards.zscore 0 5 2 = 0 ∧ ((0 : ℚ) - 5) / 2 ≠ 0 := by
  constructor
  · rfl
  · norm_num

/-- C4 amended. The series z-score of game-cards.js computes
(x - cohort mean) / cohort std with result 0 whenever the cohort standard
deviation is 0 (in particular for a constant cohort), never dividing by a zero
std; the second implementation guards std = 0 the same way but additionally
returns 0 whenever the value or the mean is 0. -/
theorem zScore_cohort_guard :
    (∀ series : List ℝ, GameCards.std series = 0 →
      GameCards.zScore series = series.map (fun _ => 0)) ∧
    (∀ series : List ℝ, GameCards.std series ≠ 0 →
      GameCards.zScore series = series.map
        (fun x => (x - GameCards.mean series) / GameCards.std series)) ∧
    (∀ (series : List ℝ) (c : ℝ), (∀ x ∈ series, x = c) →
      GameCards.zScore series = series.map (fun _ => 0)) ∧
    (∀ v m s : ℚ, (s = 0 → GameCards.zscore v m s = 0) ∧
      (v ≠ 0 → m ≠ 0 → s ≠ 0 → GameCards.zscore v m s = (v - m) / s)) := by
  refine ⟨fun series h => ?_, fun series h => ?_, fun series c h => ?_,
    fun v m s => ⟨fun h => ?_, fun hv hm hs => ?_⟩⟩
  · unfold GameCards.zScore
    exact List.map_congr_left fun x _ => if_pos h
  · unfold GameCards.zScore
    exact List.map_congr_left fun x _ => if_neg h
  · unfold GameCards.zScore
    exact List.map_congr_left fun x _ => if_pos (GameCards.std_of_constant series c h)
  · unfold GameCards.zscore
    rw [if_pos (Or.inr (Or.inr h))]
  · unfold GameCards.zscore
    rw [if_neg (by simp [hv, hm, hs])]

/-- C4 witness: a constant cohort [1, 1] yields z-scores [0, 0]; the second
implementation at value 1, mean 2, std 4 yields (1 - 2) / 4. -/
theorem zScore_cohort_guard_witness :
    ((∀ x ∈ [(1 : ℝ), 1], x = 1) ∧ GameCards.zScore [(1 : ℝ), 1] = [0, 0]) ∧
    ((1 : ℚ) ≠ 0 ∧ (2 : ℚ) ≠ 0 ∧ (4 : ℚ) ≠ 0 ∧
      GameCards.zscore 1 2 4 = (1 - 2) / 4) :=
  ⟨⟨by norm_num,
    by simpa using zScore_cohort_guard.2.2.1 [(1 : ℝ), 1] 1 (by norm_num)⟩,
   ⟨by norm_num, by norm_num, by norm_num,
    (zScore_cohort_guard.2.2.2 1 2 4).2 (by norm_num) (by norm_num) (by norm_num)⟩⟩

namespace GameCardJsx

/-- Polynomial factor of the Abramowitz-Stegun erf approximation in
`zScoreToProbability` of `src/unnamed/part_002` (components/GameCard.jsx,
lines 67-76), written exactly as nested in the source (line 72). -/
noncomputable def erfPoly (t : ℝ) : ℝ :=
  ((((1.061405429 * t - 1.453152027) * t + 1.421413741) * t - 0.284496736) * t
    + 0.254829592) * t

/-- The substitution `t = 1 / (1 + 0.3275911 * x)` of line 71. -/
noncomputable def tOf (x : ℝ) : ℝ := 1 / (1 + 0.3275911 * x)

/-- Embeds the inner `erf` of lines 68-74: sign times
`1 - erfPoly(t) * exp(-x*x)` evaluated at `|x|`. -/
noncomputable def erf (x : ℝ) : ℝ :=
  (if 0 ≤ x then 1 else -1) * (1 - erfPoly (tOf |x|) * Real.exp (-(|x| * |x|)))

/-- Embeds `zScoreToProbability` (line 75):
`Math.round(0.5 * (1 + erf(z / Math.sqrt(2))) * 100)`; `Math.round` rounds
half toward positive infinity, as does `round`. -/
noncomputable def zScoreToProbability (z : ℝ) : ℤ :=
  round (0.5 * (1 + erf (z / Real.sqrt 2)) * 100)

theorem erfPoly_mono {s t : ℝ} (hs : 0 ≤ s) (hst : s ≤ t) (ht1 : t ≤ 1) :
    erfPoly s ≤ erfPoly t := by
  have ht : 0 ≤ t := le_trans hs hst
  have hs1 : s ≤ 1 := le_trans hst ht1
  have hB : 0 ≤ 0.254829592 - 0.284496736 * (s + t)
      + 1.421413741 * (s ^ 2 + s * t + t ^ 2)
      - 1.453152027 * (s ^ 3 + s ^ 2 * t + s * t ^ 2 + t ^ 3)
      + 1.061405429 * (s ^ 4 + s ^ 3 * t + s ^ 2 * t ^ 2 + s * t ^ 3 + t ^ 4) := by
    nlinarith [sq_nonneg (s - t), sq_nonneg (s + t - 1), mul_nonneg hs ht,
      mul_nonneg (mul_nonneg hs ht) (mul_nonneg hs ht),
      mul_nonneg (sub_nonneg.mpr hs1) (sub_nonneg.mpr ht1),
      sq_nonneg (s + t - 0.3), sq_nonneg (s * t - 0.1),
      mul_nonneg (mul_nonneg hs hs) (mul_nonneg ht ht),
      sq_nonneg (s ^ 2 + t ^ 2 - 0.2)]
  unfold erfPoly
  nlinarith [mul_nonneg (sub_nonneg.mpr hst) hB]

theorem erfPoly_nonneg {t : ℝ} (h0 : 0 ≤ t) (h1 : t ≤ 1) : 0 ≤ erfPoly t := by
  have h := erfPoly_mono (le_refl 0) h0 h1
  have h0' : erfPoly 0 = 0 := by norm_num [erfPoly]
  linarith

theorem erfPoly_le_one {t : ℝ} (h0 : 0 ≤ t) (h1 : t ≤ 1) : erfPoly t ≤ 1 := by
  have h := erfPoly_mono h0 h1 (le_refl 1)
  have h1' : erfPoly 1 = 0.999999999 := by norm_num [erfPoly]
  linarith

theorem tOf_pos {x : ℝ} (hx : 0 ≤ x) : 0 < tOf x := by
  unfold tOf
  have : (0 : ℝ) < 1 + 0.3275911 * x := by nlinarith
  positivity

theorem tOf_le_one {x : ℝ} (hx : 0 ≤ x) : tOf x ≤ 1 := by
  unfold tOf
  rw [div_le_one (by nlinarith)]
  nlinarith

theorem tOf_antitone {x y : ℝ} (hx : 0 ≤ x) (hxy : x ≤ y) : tOf y ≤ tOf x := by
  unfold tOf
  exact one_div_le_one_div_of_le (by nlinarith) (by nlinarith)

theorem decay_nonneg {x : ℝ} (hx : 0 ≤ x) :
    0 ≤ erfPoly (tOf x) * Real.exp (-(x * x)) :=
  mul_nonneg (erfPoly_nonneg (tOf_pos hx).le (tOf_le_one hx)) (Real.exp_pos _).le

theorem decay_le_one {x : ℝ} (hx : 0 ≤ x) :
    erfPoly (tOf x) * Real.exp (-(x * x)) ≤ 1 := by
  have h1 : erfPoly (tOf x) ≤ 1 := erfPoly_le_one (tOf_pos hx).le (tOf_le_one hx)
  have h2 : Real.exp (-(x * x)) ≤ 1 := by
    rw [Real.exp_le_one_iff]
    nlinarith [mul_self_nonneg x]
  have h3 : 0 ≤ Real.exp (-(x * x)) := (Real.exp_pos _).le
  nlinarith [erfPoly_nonneg (tOf_pos hx).le (tOf_le_one hx)]

theorem decay_antitone {x y : ℝ} (hx : 0 ≤ x) (hxy : x ≤ y) :
    erfPoly (tOf y) * Real.exp (-(y * y)) ≤ erfPoly (tOf x) * Real.exp (-(x * x)) := by
  have hy : 0 ≤ y := le_trans hx hxy
  have hpoly : erfPoly (tOf y) ≤ erfPoly (tOf x) :=
    erfPoly_mono (tOf_pos hy).le (tOf_antitone hx hxy) (tOf_le_one hx)
  have hexp : Real.exp (-(y * y)) ≤ Real.exp (-(x * x)) := by
    rw [Real.exp_le_exp]
    nlinarith
  exact mul_le_mul hpoly hexp (Real.exp_pos _).le
    (erfPoly_nonneg (tOf_pos hx).le (tOf_le_one hx))

theorem erf_eq_of_nonneg {x : ℝ} (hx : 0 ≤ x) :
    erf x = 1 - erfPoly (tOf x) * Real.exp (-(x * x)) := by
  unfold erf
  rw [if_pos hx, abs_of_nonneg hx, one_mul]

theorem erf_eq_of_neg {x : ℝ} (hx : x < 0) :
    erf x = -(1 - erfPoly (tOf (-x)) * Real.exp (-(-x * -x))) := by
  unfold erf
  rw [if_neg (not_le.mpr hx), abs_of_neg hx, neg_one_mul]

theorem erf_bounds (x : ℝ) : -1 ≤ erf x ∧ erf x ≤ 1 := by
  by_cases hx : 0 ≤ x
  · rw [erf_eq_of_nonneg hx]
    constructor
    · linarith [decay_le_one hx]
    · linarith [decay_nonneg hx]
  · push_neg at hx
    rw [erf_eq_of_neg hx]
    have hnx : 0 ≤ -x := by linarith
    constructor
    · linarith [decay_nonneg hnx]
    · linarith [decay_le_one hnx]

theorem erf_nonneg_of_nonneg {x : ℝ} (hx : 0 ≤ x) : 0 ≤ erf x := by
  rw [erf_eq_of_nonneg hx]
  linarith [decay_le_one hx]

theorem erf_nonpos_of_neg {x : ℝ} (hx : x < 0) : erf x ≤ 0 := by
  rw [erf_eq_of_neg hx]
  have hnx : 0 ≤ -x := by linarith
  linarith [decay_le_one hnx]

theorem erf_mono {x y : ℝ} (h : x ≤ y) : erf x ≤ erf y := by
  by_cases hx : 0 ≤ x
  · have hy : 0 ≤ y := le_trans hx h
    rw [erf_eq_of_nonneg hx, erf_eq_of_nonneg hy]
    linarith [decay_antitone hx h]
  · push_neg at hx
    by_cases hy : 0 ≤ y
    · exact le_trans (erf_nonpos_of_neg hx) (erf_nonneg_of_nonneg hy)
    · push_neg at hy
      rw [erf_eq_of_neg hx, erf_eq_of_neg hy]
      have hny : 0 ≤ -y := by linarith
      have hsw : -y ≤ -x := by linarith
      linarith [decay_antitone hny hsw]

theorem round_mono_of_le {x y : ℝ} (h : x ≤ y) : round x ≤ round y := by
  rw [round_eq, round_eq]
  exact Int.floor_le_floor (by linarith)

theorem zScoreToProbability_bounds (z : ℝ) :
    0 ≤ zScoreToProbability z ∧ zScoreToProbability z ≤ 100 := by
  unfold zScoreToProbability
  rcases erf_bounds (z / Real.sqrt 2) with ⟨hlo, hhi⟩
  constructor
  · have h := round_mono_of_le
      (x := (0 : ℝ)) (y := 0.5 * (1 + erf (z / Real.sqrt 2)) * 100) (by nlinarith)
    simpa using h
  · have h := round_mono_of_le
      (x := 0.5 * (1 + erf (z / Real.sqrt 2)) * 100) (y := (100 : ℝ)) (by nlinarith)
    have h100 : round (100 : ℝ) = 100 := by norm_num [round_eq]
    omega

theorem zScoreToProbability_mono {z w : ℝ} (h : z ≤ w) :
    zScoreToProbability z ≤ zScoreToProbability w := by
  unfold zScoreToProbability
  apply round_mono_of_le
  have hsqrt : (0 : ℝ) < Real.sqrt 2 := Real.sqrt_pos.mpr (by norm_num)
  have hdiv : z / Real.sqrt 2 ≤ w / Real.sqrt 2 := (div_le_div_iff_of_pos_right hsqrt).mpr h
  have := erf_mono hdiv
  nlinarith

theorem zScoreToProbability_zero : zScoreToProbability 0 = 50 := by
  unfold zScoreToProbability
  rw [zero_div]
  have h0 : erf 0 = 1 / 1000000000 := by
    rw [erf_eq_of_nonneg (le_refl 0)]
    rw [show tOf 0 = 1 by norm_num [tOf]]
    rw [show (-(0 * 0) : ℝ) = 0 by norm_num, Real.exp_zero]
    norm_num [erfPoly]
  rw [h0]
  rw [show (0.5 * (1 + 1 / 1000000000) * 100 : ℝ) = 50 + 5 / 100000000 by norm_num]
  norm_num [round_eq]

end GameCardJsx

namespace GameCardAltJsx

/-- Embeds `zScoreToPercentage` from `src/unnamed/part_003`
(components/GameCard.jsx, lines 86-89): the logistic value
`100 / (1 + exp(-z))`, rounded, clamped to [1, 99]. -/
noncomputable def zScoreToPercentage (z : ℝ) : ℤ :=
  min 99 (max 1 (round (100 / (1 + Real.exp (-z)))))

theorem logistic_mono {z w : ℝ} (h : z ≤ w) :
    100 / (1 + Real.exp (-z)) ≤ 100 / (1 + Real.exp (-w)) := by
  have hexp : Real.exp (-w) ≤ Real.exp (-z) := Real.exp_le_exp.mpr (by linarith)
  have hw : (0 : ℝ) < 1 + Real.exp (-w) := by positivity
  exact div_le_div_of_nonneg_left (by norm_num) hw (by linarith)

theorem zScoreToPercentage_bounds (z : ℝ) :
    1 ≤ zScoreToPercentage z ∧ zScoreToPercentage z ≤ 99 := by
  unfold zScoreToPercentage
  exact ⟨le_min (by norm_num) (le_max_left 1 _), min_le_left _ _⟩

theorem zScoreToPercentage_mono {z w : ℝ} (h : z ≤ w) :
    zScoreToPercentage z ≤ zScoreToPercentage w := by
  unfold zScoreToPercentage
  exact min_le_min (le_refl 99)
    (max_le_max (le_refl 1)
      (GameCardJsx.round_mono_of_le (logistic_mono h)))

theorem zScoreToPercentage_zero : zScoreToPercentage 0 = 50 := by
  unfold zScoreToPercentage
  rw [show (-(0 : ℝ)) = 0 by norm_num, Real.exp_zero]
  rw [show (100 / (1 + 1) : ℝ) = 50 by norm_num]
  rw [show round (50 : ℝ) = 50 by norm_num [round_eq]]
  norm_num

end GameCardAltJsx

/-- C1. Both z-score-to-probability conversions return an integer percentage
in [0, 100], return exactly 50 at z-score 0, and are monotonically
non-decreasing in the z-score: the Abramowitz-Stegun-based
`zScoreToProbability` of part_002 and the logistic `zScoreToPercentage` of
part_003 (whose range is in fact the subinterval [1, 99]). -/
theorem zscore_probability_conversion :
    (∀ z : ℝ, 0 ≤ GameCardJsx.zScoreToProbability z ∧
      GameCardJsx.zScoreToProbability z ≤ 100 ∧
      0 ≤ GameCardAltJsx.zScoreToPercentage z ∧
      GameCardAltJsx.zScoreToPercentage z ≤ 100) ∧
    GameCardJsx.zScoreToProbability 0 = 50 ∧
    GameCardAltJsx.zScoreToPercentage 0 = 50 ∧
    (∀ z w : ℝ, z ≤ w →
      GameCardJsx.zScoreToProbability z ≤ GameCardJsx.zScoreToProbability w ∧
      GameCardAltJsx.zScoreToPercentage z ≤ GameCardAltJsx.zScoreToPercentage w) := by
  refine ⟨fun z => ?_, GameCardJsx.zScoreToProbability_zero,
    GameCardAltJsx.zScoreToPercentage_zero,
    fun z w h => ⟨GameCardJsx.zScoreToProbability_mono h,
      GameCardAltJsx.zScoreToPercentage_mono h⟩⟩
  rcases GameCardJsx.zScoreToProbability_bounds z with ⟨h1, h2⟩
  rcases GameCardAltJsx.zScoreToPercentage_bounds z with ⟨h3, h4⟩
  exact ⟨h1, h2, by omega, by omega⟩

/-- C1 witness: the monotonicity part applied at the inputs 0 and 1. -/
theorem zscore_probability_conversion_witness :
    (0 : ℝ) ≤ 1 ∧
    GameCardJsx.zScoreToProbability 0 ≤ GameCardJsx.zScoreToProbability 1 ∧
    GameCardAltJsx.zScoreToPercentage 0 ≤ GameCardAltJsx.zScoreToPercentage 1 :=
  ⟨by norm_num, zscore_probability_conversion.2.2.2 0 1 (by norm_num)⟩
